import Mathlib

/-!
Verification of the two-stage greedy transfer-allocation engine of
`src/app.py` ("Transfer Planning Tool").

The engine consumes a table of rows (region manager, depot code, item code,
need, transferable availability), builds two mutable dictionaries
`need : (depot, item) → ℚ` and `availability : (depot, item) → ℚ`, and runs
two greedy matching passes (per-region, then global) that record transfer
instructions while decrementing both dictionaries.

The embedding below is a direct translation of the Python source:
  * Python dicts built by `DataFrame.set_index(...).to_dict()` become
    association lists where inserting an existing key overwrites its value
    (so duplicated (depot, item) rows keep the last row's value, as
    `to_dict` does), `dict.get(k, 0)` becomes `dictGetD`, and the direct
    subscript mutation `d[k] -= q` becomes `dictSub`.  A Python `KeyError`
    cannot be modelled by an exception here, so the state carries an `ok`
    flag that records whether every subscript mutation found its key
    present; while `ok` stays `true`, the embedded run and the Python run
    agree.
  * quantities are rationals (pandas floats carry exact small decimals in
    the inputs of interest; the algorithm is pure ordered-field
    arithmetic: `min`, subtraction, comparisons with 0).
  * `pandas.DataFrame.groupby` (with the default `sort=True`) becomes
    "deduplicate keys in order of first appearance, sort them ascending,
    and filter the row list per key"; `Series.unique()` and
    `drop_duplicates()` become `dedupFirst` (first occurrence, input
    order).
  * `sort_values(col, ascending=False)` becomes `sortDesc`, a descending
    insertion sort that keeps elements with equal sort keys in their input
    order.  This is a modelling commitment, not a property of the source:
    the source calls `sort_values` with the default `kind='quicksort'`
    (numpy introsort), which pandas and numpy document as NOT stable, so
    the source guarantees the tie order of `sortDesc` only for candidate
    arrays small enough (at most 16 elements) that introsort degenerates
    to its stable insertion-sort fallback; for larger tied candidate sets
    the source's tie order is implementation-defined (this gap is the
    subject of claim C5).  No other theorem below depends on the order of
    the candidate lists, only on their membership.
  * the nested `for ... iterrows()` loops with `continue` become the
    structural recursions `senderLoop` / `receiverLoop`.
-/

namespace TransferApp

/-- A (depot code, item code) dictionary key, both opaque strings. -/
abbrev Key := String × String

/-- A Python dict keyed by `Key` with rational values, as an association
list without duplicate keys (inserts overwrite). -/
abbrev Dict := List (Key × ℚ)

/-- Dictionary lookup, `d.get(k)`: first (unique) binding of the key. -/
def dictGet? : Dict → Key → Option ℚ
  | [], _ => none
  | (k', v) :: m, k => if k' = k then some v else dictGet? m k

/-- Dictionary lookup with default 0, `d.get(k, 0)`. -/
def dictGetD (m : Dict) (k : Key) : ℚ := (dictGet? m k).getD 0

/-- Key-presence test, `k in d`. -/
def dictContains (m : Dict) (k : Key) : Bool := (dictGet? m k).isSome

/-- Dictionary store `d[k] = v`: overwrite the binding if the key is
present, otherwise append a fresh binding. -/
def dictSet : Dict → Key → ℚ → Dict
  | [], k, v => [(k, v)]
  | (k', v') :: m, k, v => if k' = k then (k, v) :: m else (k', v') :: dictSet m k v

/-- Dictionary decrement `d[k] -= q` (total version: on a missing key it
stores `0 - q`; the `ok` flag of `AllocState` separately records whether
the key was present, i.e. whether Python would have raised `KeyError`). -/
def dictSub (m : Dict) (k : Key) (q : ℚ) : Dict := dictSet m k (dictGetD m k - q)

/-- An input row of the table: region manager ("Bölge Müdürü"), depot code
("Depo Kodu"), item code ("Madde Kodu"), need ("İhtiyaç") and
transferable availability ("Transfer Edilebilir").  The numeric fields are
the values after `pd.to_numeric(..., errors="coerce").fillna(0)`, which
turns every non-numeric cell into 0, so they are plain rationals here. -/
structure Row where
  bolgeMuduru : String
  depoKodu : String
  maddeKodu : String
  ihtiyac : ℚ
  transferEdilebilir : ℚ
deriving DecidableEq

/-- The negative-clipping normalization pass
(`df.loc[df[col] < 0, col] = 0` for both numeric columns). -/
def normalizeRow (r : Row) : Row :=
  { r with ihtiyac := max r.ihtiyac 0, transferEdilebilir := max r.transferEdilebilir 0 }

/-- One recorded transfer row appended by `apply_transfer`. -/
structure TransferInstruction where
  transferTipi : String
  gonderenDepo : String
  alanDepo : String
  maddeKodu : String
  transferMiktari : ℚ
deriving DecidableEq

/-- The mutable program state shared by both stages: the two global dicts,
the accumulated `transfer_list`, and the `ok` flag recording that every
executed dict subscript-mutation found its key present (no `KeyError`). -/
structure AllocState where
  need : Dict
  availability : Dict
  transfers : List TransferInstruction
  ok : Bool
deriving DecidableEq

/-- The Python `apply_transfer(sender, receiver, item, qty, tipi)`:
a no-op for `qty <= 0`, otherwise appends one transfer row and performs
`availability[(sender, item)] -= qty` and `need[(receiver, item)] -= qty`. -/
def applyTransfer (sender receiver item : String) (qty : ℚ) (tipi : String)
    (st : AllocState) : AllocState :=
  if qty ≤ 0 then st
  else
    { need := dictSub st.need (receiver, item) qty
      availability := dictSub st.availability (sender, item) qty
      transfers := st.transfers ++ [⟨tipi, sender, receiver, item, qty⟩]
      ok := st.ok && dictContains st.availability (sender, item)
               && dictContains st.need (receiver, item) }

/-- First-occurrence deduplication with an accumulator of already-seen
values (pandas `unique()` / `drop_duplicates()`). -/
def dedupFirstAux (seen : List String) : List String → List String
  | [] => []
  | x :: xs => if x ∈ seen then dedupFirstAux seen xs else x :: dedupFirstAux (x :: seen) xs

/-- Values of a list in order of first appearance. -/
def dedupFirst (l : List String) : List String := dedupFirstAux [] l

/-- Insert one element into a descending-by-value list, after all elements
with a strictly larger value and before all elements with a value less
than or equal to its own. -/
def insertDesc (x : String × ℚ) : List (String × ℚ) → List (String × ℚ)
  | [] => [x]
  | y :: ys => if y.2 ≤ x.2 then x :: y :: ys else y :: insertDesc x ys

/-- The pandas `sort_values(col, ascending=False)` on a (depot, value)
table: descending by value, with elements of equal value kept in input
order.  The input-order tie behavior is guaranteed by the source only for
small candidate arrays, since its default `kind='quicksort'` is documented
non-stable; see the module comment. -/
def sortDesc : List (String × ℚ) → List (String × ℚ)
  | [] => []
  | x :: xs => insertDesc x (sortDesc xs)

/-- Insert one string into an ascending list (for sorted `groupby` keys). -/
def insertStr (x : String) : List String → List String
  | [] => [x]
  | y :: ys => if x < y then x :: y :: ys else y :: insertStr x ys

/-- Sort strings ascending, as `groupby` (default `sort=True`) orders its
group keys. -/
def sortStr : List String → List String
  | [] => []
  | x :: xs => insertStr x (sortStr xs)

/-- Candidate depots for one item drawn from `depots`, looking the metric
up in dict `m`: keep depots whose looked-up value is `> 0`, sorted
descending by that value (the common shape of the four
`receivers` / `senders` constructions of both stages). -/
def candidates (depots : List String) (m : Dict) (item : String) : List String :=
  (sortDesc ((depots.map (fun d => (d, dictGetD m (d, item)))).filter
    (fun p => decide (0 < p.2)))).map (fun p => p.1)

/-- The inner `for _, s in senders.iterrows()` loop for one receiver:
skip the receiver itself, re-read the sender's live availability, skip
exhausted senders and a satisfied receiver, else transfer
`min(r_need, s_avail)` and lower the running `r_need`. -/
def senderLoop (item recv : String) (senders : List String) (tipi : String)
    (rNeed : ℚ) (st : AllocState) : AllocState :=
  match senders with
  | [] => st
  | send :: rest =>
      if send = recv then senderLoop item recv rest tipi rNeed st
      else
        let sAvail := dictGetD st.availability (send, item)
        if sAvail ≤ 0 ∨ rNeed ≤ 0 then senderLoop item recv rest tipi rNeed st
        else
          let qty := min rNeed sAvail
          senderLoop item recv rest tipi (rNeed - qty)
            (applyTransfer send recv item qty tipi st)

/-- The outer `for _, r in receivers.iterrows()` loop: read the receiver's
live need, skip satisfied receivers, else run the sender loop. -/
def receiverLoop (item : String) (receivers senders : List String) (tipi : String)
    (st : AllocState) : AllocState :=
  match receivers with
  | [] => st
  | recv :: rest =>
      let rNeed := dictGetD st.need (recv, item)
      if rNeed ≤ 0 then receiverLoop item rest senders tipi st
      else receiverLoop item rest senders tipi (senderLoop item recv senders tipi rNeed st)

/-- The body shared by both stages for one item: build the receiver
candidates from the live `need` dict, skip the item if empty, build the
sender candidates from the live `availability` dict, skip if empty, else
run the greedy double loop. -/
def runItem (depots : List String) (item : String) (tipi : String)
    (st : AllocState) : AllocState :=
  let receivers := candidates depots st.need item
  if receivers = [] then st
  else
    let senders := candidates depots st.availability item
    if senders = [] then st
    else receiverLoop item receivers senders tipi st

/-- The rows of one `groupby("Bölge Müdürü")` group, in input order. -/
def rowsForManager (rows : List Row) (m : String) : List Row :=
  rows.filter (fun r => r.bolgeMuduru = m)

/-- Stage 1 body for one region group: iterate the group's distinct items
in order of first appearance; candidates are the group's depots holding a
row for that item. -/
def stage1Region (groupRows : List Row) (st : AllocState) : AllocState :=
  (dedupFirst (groupRows.map (fun r => r.maddeKodu))).foldl
    (fun s it =>
      runItem (dedupFirst (((groupRows.filter (fun r => r.maddeKodu = it)).map
        (fun r => r.depoKodu)))) it "Bölge içi" s) st

/-- Stage 1: region-internal transfers, iterating the region managers in
ascending sorted order as `groupby` does. -/
def stage1 (rows : List Row) (st : AllocState) : AllocState :=
  (sortStr (dedupFirst (rows.map (fun r => r.bolgeMuduru)))).foldl
    (fun s m => stage1Region (rowsForManager rows m) s) st

/-- Stage 2: cross-region transfers; one pass per distinct item over the
whole network, candidates drawn from all distinct depots of the table. -/
def stage2 (rows : List Row) (st : AllocState) : AllocState :=
  (dedupFirst (rows.map (fun r => r.maddeKodu))).foldl
    (fun s it => runItem (dedupFirst (rows.map (fun r => r.depoKodu))) it "Bölge dışı" s) st

/-- Build one of the two global dicts from the rows
(`df.set_index(["Depo Kodu", "Madde Kodu"])[col].to_dict()`): on duplicate
(depot, item) pairs the last row's value wins. -/
def buildDict (rows : List Row) (f : Row → ℚ) : Dict :=
  rows.foldl (fun m r => dictSet m (r.depoKodu, r.maddeKodu) (f r)) []

/-- The `Loaded` state: both dicts built from the (already normalized)
rows, no transfers, no `KeyError` so far. -/
def initState (rows : List Row) : AllocState :=
  { need := buildDict rows (fun r => r.ihtiyac)
    availability := buildDict rows (fun r => r.transferEdilebilir)
    transfers := []
    ok := true }

/-- The whole engine: normalize the rows, build the dicts, run Stage 1
then Stage 2 on the same state. -/
def runEngine (rawRows : List Row) : AllocState :=
  let rows := rawRows.map normalizeRow
  stage2 rows (stage1 rows (initState rows))

/-- Sum of the quantities of the recorded instructions in which depot
`k.1` receives item `k.2`. -/
def received (k : Key) : List TransferInstruction → ℚ
  | [] => 0
  | t :: ts => (if t.alanDepo = k.1 ∧ t.maddeKodu = k.2 then t.transferMiktari else 0)
      + received k ts

/-- Sum of the quantities of the recorded instructions in which depot
`k.1` sends item `k.2`. -/
def sent (k : Key) : List TransferInstruction → ℚ
  | [] => 0
  | t :: ts => (if t.gonderenDepo = k.1 ∧ t.maddeKodu = k.2 then t.transferMiktari else 0)
      + sent k ts

/-- Replay of the `need`-side effects of a list of instructions on a dict
(the state of the `need` dict after the instructions have been applied). -/
def replayNeed (nd : Dict) : List TransferInstruction → Dict
  | [] => nd
  | t :: ts => replayNeed (dictSub nd (t.alanDepo, t.maddeKodu) t.transferMiktari) ts

/-- Replay of the `availability`-side effects of a list of instructions. -/
def replayAvail (av : Dict) : List TransferInstruction → Dict
  | [] => av
  | t :: ts => replayAvail (dictSub av (t.gonderenDepo, t.maddeKodu) t.transferMiktari) ts

/-- Every value of the dict (and the default for missing keys) is ≥ 0. -/
def NonNegD (m : Dict) : Prop := ∀ k : Key, 0 ≤ dictGetD m k

/-- Between two states, the transfer list has only been extended, and every
appended instruction satisfies `P`. -/
def NewTransfers (st st' : AllocState) (P : TransferInstruction → Prop) : Prop :=
  ∃ ts, st'.transfers = st.transfers ++ ts ∧ ∀ t ∈ ts, P t

/-- The conservation relation between two states of one run: for every
key, remaining need plus total received is unchanged, and remaining
availability plus total sent is unchanged. -/
def ConsEq (st st' : AllocState) : Prop :=
  ∀ k : Key,
    dictGetD st'.need k + received k st'.transfers
      = dictGetD st.need k + received k st.transfers ∧
    dictGetD st'.availability k + sent k st'.transfers
      = dictGetD st.availability k + sent k st.transfers

/-- Both dict values at every key have not increased between two states. -/
def MonoLe (st st' : AllocState) : Prop :=
  (∀ k : Key, dictGetD st'.need k ≤ dictGetD st.need k) ∧
  (∀ k : Key, dictGetD st'.availability k ≤ dictGetD st.availability k)

/-- The run invariant tying a reachable state to the initial dicts: both
dicts equal the replay of the recorded instruction list so far, and the
replay of every prefix of that list is non-negative in both dicts.  This
is the precise statement that need and availability are ≥ 0 after every
applied transfer of the run, not only at the end. -/
def Tracks (nd av : Dict) (st : AllocState) : Prop :=
  st.need = replayNeed nd st.transfers ∧
  st.availability = replayAvail av st.transfers ∧
  ∀ p, p <+: st.transfers → NonNegD (replayNeed nd p) ∧ NonNegD (replayAvail av p)

/-- After a state, for one item, receiver `D` and sender `E` cannot both
still be live: either `D`'s need or `E`'s availability is exhausted. -/
def NoMatch (st : AllocState) (item D E : String) : Prop :=
  dictGetD st.need (D, item) ≤ 0 ∨ dictGetD st.availability (E, item) ≤ 0

/-! ### Concrete inputs used by the witnesses -/

/-- Two depots of one region, one item: A has surplus 10, B needs 10. -/
def rowsW : List Row :=
  [⟨"R1", "A", "X001", 0, 10⟩, ⟨"R1", "B", "X001", 10, 0⟩]

/-- Two depots of different regions: A has surplus 5, C needs 5. -/
def rowsW2 : List Row :=
  [⟨"R1", "A", "X002", 0, 5⟩, ⟨"R2", "C", "X002", 5, 0⟩]

/-- A table whose need values are all ≤ 0 (so all clamp to 0). -/
def rowsZ : List Row :=
  [⟨"R1", "A", "X001", 0, 10⟩, ⟨"R1", "B", "X001", -3, 5⟩]

/-! ### Dictionary lemmas -/

theorem dictGet?_set (m : Dict) (k : Key) (v : ℚ) (k' : Key) :
    dictGet? (dictSet m k v) k' = if k = k' then some v else dictGet? m k' := by
  induction m with
  | nil =>
      by_cases h : k = k' <;> simp [dictSet, dictGet?, h]
  | cons hd tl ih =>
      obtain ⟨hk, hv⟩ := hd
      by_cases h1 : hk = k
      · subst h1
        by_cases h2 : hk = k' <;> simp [dictSet, dictGet?, h2]
      · by_cases h2 : hk = k'
        · subst h2
          have hkk : ¬ k = hk := fun h => h1 h.symm
          simp [dictSet, dictGet?, h1, hkk]
        · simp [dictSet, dictGet?, h1, h2, ih]

theorem dictGetD_set (m : Dict) (k : Key) (v : ℚ) (k' : Key) :
    dictGetD (dictSet m k v) k' = if k = k' then v else dictGetD m k' := by
  rw [dictGetD, dictGet?_set]
  by_cases h : k = k' <;> simp [dictGetD, h]

theorem dictGetD_sub (m : Dict) (k : Key) (q : ℚ) (k' : Key) :
    dictGetD (dictSub m k q) k' = if k = k' then dictGetD m k - q else dictGetD m k' := by
  rw [dictSub, dictGetD_set]

theorem dictGetD_sub_le (m : Dict) (k : Key) (q : ℚ) (hq : 0 ≤ q) (k' : Key) :
    dictGetD (dictSub m k q) k' ≤ dictGetD m k' := by
  rw [dictGetD_sub]
  by_cases h : k = k'
  · subst h; simp; linarith
  · simp [h]

theorem dictContains_of_pos (m : Dict) (k : Key) (h : 0 < dictGetD m k) :
    dictContains m k = true := by
  rcases ho : dictGet? m k with _ | v
  · rw [dictGetD, ho] at h
    simp at h
  · simp [dictContains, ho]

/-! ### `dedupFirst`, `sortDesc`, `candidates` lemmas -/

theorem mem_dedupFirstAux (l : List String) :
    ∀ seen a, a ∈ dedupFirstAux seen l ↔ a ∈ l ∧ a ∉ seen := by
  induction l with
  | nil => intro seen a; simp [dedupFirstAux]
  | cons x xs ih =>
      intro seen a
      by_cases hx : x ∈ seen
      · rw [dedupFirstAux, if_pos hx, ih]
        simp only [List.mem_cons]
        constructor
        · rintro ⟨ha, hs⟩
          exact ⟨Or.inr ha, hs⟩
        · rintro ⟨rfl | ha, hs⟩
          · exact absurd hx hs
          · exact ⟨ha, hs⟩
      · rw [dedupFirstAux, if_neg hx]
        simp only [List.mem_cons, ih]
        constructor
        · rintro (rfl | ⟨ha, hs⟩)
          · exact ⟨Or.inl rfl, hx⟩
          · exact ⟨Or.inr ha, fun h => hs (Or.inr h)⟩
        · rintro ⟨rfl | ha, hs⟩
          · exact Or.inl rfl
          · by_cases hax : a = x
            · exact Or.inl hax
            · refine Or.inr ⟨ha, fun h => ?_⟩
              rcases h with h' | h'
              · exact hax h'
              · exact hs h'

theorem mem_dedupFirst (l : List String) (a : String) :
    a ∈ dedupFirst l ↔ a ∈ l := by
  rw [dedupFirst, mem_dedupFirstAux]
  simp

theorem mem_insertDesc (x : String × ℚ) (l : List (String × ℚ)) (a : String × ℚ) :
    a ∈ insertDesc x l ↔ a = x ∨ a ∈ l := by
  induction l with
  | nil => simp [insertDesc]
  | cons y ys ih =>
      rw [insertDesc]
      by_cases h : y.2 ≤ x.2
      · simp [if_pos h]
      · rw [if_neg h]
        simp only [List.mem_cons, ih]
        tauto

theorem mem_sortDesc (l : List (String × ℚ)) (a : String × ℚ) :
    a ∈ sortDesc l ↔ a ∈ l := by
  induction l with
  | nil => simp [sortDesc]
  | cons x xs ih => rw [sortDesc, mem_insertDesc, ih]; simp

theorem mem_candidates (depots : List String) (m : Dict) (item : String) (d : String) :
    d ∈ candidates depots m item ↔ d ∈ depots ∧ 0 < dictGetD m (d, item) := by
  constructor
  · intro h
    rcases List.mem_map.mp h with ⟨p, hp, hfst⟩
    rcases List.mem_filter.mp ((mem_sortDesc _ _).mp hp) with ⟨hmem, hpos⟩
    rcases List.mem_map.mp hmem with ⟨d', hd', rfl⟩
    simp only at hfst
    subst hfst
    exact ⟨hd', of_decide_eq_true hpos⟩
  · rintro ⟨hd, hpos⟩
    refine List.mem_map.mpr ⟨(d, dictGetD m (d, item)), ?_, rfl⟩
    refine (mem_sortDesc _ _).mpr (List.mem_filter.mpr ⟨List.mem_map.mpr ⟨d, hd, rfl⟩, ?_⟩)
    exact decide_eq_true hpos

/-! ### The transfer list only grows, by instructions of a known shape -/

theorem newTransfers_refl (st : AllocState) (P : TransferInstruction → Prop) :
    NewTransfers st st P :=
  ⟨[], by simp, by simp⟩

theorem newTransfers_trans {st₁ st₂ st₃ : AllocState} {P : TransferInstruction → Prop}
    (h₁ : NewTransfers st₁ st₂ P) (h₂ : NewTransfers st₂ st₃ P) :
    NewTransfers st₁ st₃ P := by
  obtain ⟨ts₁, e₁, m₁⟩ := h₁
  obtain ⟨ts₂, e₂, m₂⟩ := h₂
  refine ⟨ts₁ ++ ts₂, by rw [e₂, e₁, List.append_assoc], fun t ht => ?_⟩
  rcases List.mem_append.mp ht with h | h
  · exact m₁ t h
  · exact m₂ t h

theorem newTransfers_mono {st st' : AllocState} {P Q : TransferInstruction → Prop}
    (h : NewTransfers st st' P) (hpq : ∀ t, P t → Q t) : NewTransfers st st' Q := by
  obtain ⟨ts, e, m⟩ := h
  exact ⟨ts, e, fun t ht => hpq t (m t ht)⟩

theorem applyTransfer_new (sender receiver item : String) (qty : ℚ) (tipi : String)
    (st : AllocState) :
    NewTransfers st (applyTransfer sender receiver item qty tipi st)
      (fun t => t = ⟨tipi, sender, receiver, item, qty⟩ ∧ 0 < qty) := by
  rw [applyTransfer]
  by_cases h : qty ≤ 0
  · rw [if_pos h]; exact newTransfers_refl _ _
  · rw [if_neg h]
    exact ⟨[⟨tipi, sender, receiver, item, qty⟩], rfl, by
      intro t ht
      simp only [List.mem_singleton] at ht
      exact ⟨ht, lt_of_not_le h⟩⟩

theorem senderLoop_new (item recv : String) (senders : List String) (tipi : String)
    (rNeed : ℚ) (st : AllocState) :
    NewTransfers st (senderLoop item recv senders tipi rNeed st)
      (fun t => t.transferTipi = tipi ∧ t.maddeKodu = item ∧ t.alanDepo = recv ∧
        t.gonderenDepo ∈ senders ∧ t.gonderenDepo ≠ recv ∧ 0 < t.transferMiktari) := by
  induction senders generalizing rNeed st with
  | nil => exact newTransfers_refl _ _
  | cons send rest ih =>
      rw [senderLoop]
      by_cases h1 : send = recv
      · rw [if_pos h1]
        exact newTransfers_mono (ih rNeed st)
          (fun t ⟨a, b, c, d, e, f⟩ => ⟨a, b, c, List.mem_cons_of_mem send d, e, f⟩)
      · rw [if_neg h1]
        by_cases h2 : dictGetD st.availability (send, item) ≤ 0 ∨ rNeed ≤ 0
        · rw [if_pos h2]
          exact newTransfers_mono (ih rNeed st)
            (fun t ⟨a, b, c, d, e, f⟩ => ⟨a, b, c, List.mem_cons_of_mem send d, e, f⟩)
        · rw [if_neg h2]
          push_neg at h2
          refine newTransfers_trans
            (newTransfers_mono (applyTransfer_new send recv item _ tipi st) ?_)
            (newTransfers_mono (ih _ _)
              (fun t ⟨a, b, c, d, e, f⟩ => ⟨a, b, c, List.mem_cons_of_mem send d, e, f⟩))
          rintro t ⟨rfl, hq⟩
          exact ⟨rfl, rfl, rfl, List.mem_cons_self send rest, h1, hq⟩

theorem receiverLoop_new (item : String) (receivers senders : List String) (tipi : String)
    (st : AllocState) :
    NewTransfers st (receiverLoop item receivers senders tipi st)
      (fun t => t.transferTipi = tipi ∧ t.maddeKodu = item ∧ t.alanDepo ∈ receivers ∧
        t.gonderenDepo ∈ senders ∧ t.gonderenDepo ≠ t.alanDepo ∧ 0 < t.transferMiktari) := by
  induction receivers generalizing st with
  | nil => exact newTransfers_refl _ _
  | cons recv rest ih =>
      rw [receiverLoop]
      by_cases h : dictGetD st.need (recv, item) ≤ 0
      · rw [if_pos h]
        exact newTransfers_mono (ih st)
          (fun t ⟨a, b, c, d, e, f⟩ => ⟨a, b, List.mem_cons_of_mem recv c, d, e, f⟩)
      · rw [if_neg h]
        refine newTransfers_trans
          (newTransfers_mono (senderLoop_new item recv senders tipi _ st) ?_)
          (newTransfers_mono (ih _)
            (fun t ⟨a, b, c, d, e, f⟩ => ⟨a, b, List.mem_cons_of_mem recv c, d, e, f⟩))
        rintro t ⟨a, b, c, d, e, f⟩
        exact ⟨a, b, by rw [c]; exact List.mem_cons_self recv rest, d, c ▸ e, f⟩

theorem runItem_new (depots : List String) (item : String) (tipi : String)
    (st : AllocState) :
    NewTransfers st (runItem depots item tipi st)
      (fun t => t.transferTipi = tipi ∧ t.maddeKodu = item ∧ t.alanDepo ∈ depots ∧
        t.gonderenDepo ∈ depots ∧ t.gonderenDepo ≠ t.alanDepo ∧ 0 < t.transferMiktari) := by
  rw [runItem]
  by_cases h1 : candidates depots st.need item = []
  · rw [if_pos h1]; exact newTransfers_refl _ _
  · rw [if_neg h1]
    by_cases h2 : candidates depots st.availability item = []
    · rw [if_pos h2]; exact newTransfers_refl _ _
    · rw [if_neg h2]
      refine newTransfers_mono (receiverLoop_new item _ _ tipi st) ?_
      rintro t ⟨a, b, c, d, e, f⟩
      exact ⟨a, b, ((mem_candidates _ _ _ _).mp c).1, ((mem_candidates _ _ _ _).mp d).1, e, f⟩

theorem foldl_new {α : Type} (g : AllocState → α → AllocState)
    (P : TransferInstruction → Prop) (hg : ∀ st a, NewTransfers st (g st a) P) :
    ∀ (l : List α) (st : AllocState), NewTransfers st (l.foldl g st) P := by
  intro l
  induction l with
  | nil => intro st; exact newTransfers_refl _ _
  | cons a as ih =>
      intro st
      rw [List.foldl_cons]
      exact newTransfers_trans (hg st a) (ih (g st a))

theorem stage1Region_new (groupRows : List Row) (st : AllocState) :
    NewTransfers st (stage1Region groupRows st)
      (fun t => t.transferTipi = "Bölge içi" ∧ t.gonderenDepo ≠ t.alanDepo ∧
        0 < t.transferMiktari ∧
        (∃ r ∈ groupRows, r.depoKodu = t.gonderenDepo) ∧
        (∃ r ∈ groupRows, r.depoKodu = t.alanDepo)) := by
  rw [stage1Region]
  refine foldl_new _ _ (fun s it => ?_) _ st
  refine newTransfers_mono (runItem_new _ it "Bölge içi" s) ?_
  rintro t ⟨a, _, c, d, e, f⟩
  have hsend := (mem_dedupFirst _ _).mp d
  have hrecv := (mem_dedupFirst _ _).mp c
  rcases List.mem_map.mp hsend with ⟨r₁, hr₁, hd₁⟩
  rcases List.mem_map.mp hrecv with ⟨r₂, hr₂, hd₂⟩
  exact ⟨a, e, f, ⟨r₁, (List.mem_filter.mp hr₁).1, hd₁⟩, ⟨r₂, (List.mem_filter.mp hr₂).1, hd₂⟩⟩

theorem stage1_new (rows : List Row) (st : AllocState) :
    NewTransfers st (stage1 rows st)
      (fun t => t.transferTipi = "Bölge içi" ∧ t.gonderenDepo ≠ t.alanDepo ∧
        0 < t.transferMiktari ∧
        ∃ m, (∃ r ∈ rows, r.bolgeMuduru = m ∧ r.depoKodu = t.gonderenDepo) ∧
          (∃ r ∈ rows, r.bolgeMuduru = m ∧ r.depoKodu = t.alanDepo)) := by
  rw [stage1]
  refine foldl_new _ _ (fun s m => ?_) _ st
  refine newTransfers_mono (stage1Region_new (rowsForManager rows m) s) ?_
  rintro t ⟨a, b, c, ⟨r₁, hr₁, hd₁⟩, ⟨r₂, hr₂, hd₂⟩⟩
  rw [rowsForManager] at hr₁ hr₂
  have h₁ := List.mem_filter.mp hr₁
  have h₂ := List.mem_filter.mp hr₂
  exact ⟨a, b, c, m, ⟨r₁, h₁.1, of_decide_eq_true h₁.2, hd₁⟩,
    ⟨r₂, h₂.1, of_decide_eq_true h₂.2, hd₂⟩⟩

theorem stage2_new (rows : List Row) (st : AllocState) :
    NewTransfers st (stage2 rows st)
      (fun t => t.transferTipi = "Bölge dışı" ∧ t.gonderenDepo ≠ t.alanDepo ∧
        0 < t.transferMiktari) := by
  rw [stage2]
  refine foldl_new _ _ (fun s it => ?_) _ st
  refine newTransfers_mono (runItem_new _ it "Bölge dışı" s) ?_
  rintro t ⟨a, _, _, _, e, f⟩
  exact ⟨a, e, f⟩

/-! ### Conservation: need + received and availability + sent are constant -/

theorem received_append (k : Key) (l₁ l₂ : List TransferInstruction) :
    received k (l₁ ++ l₂) = received k l₁ + received k l₂ := by
  induction l₁ with
  | nil => simp [received]
  | cons t ts ih => simp [received, ih]; ring

theorem sent_append (k : Key) (l₁ l₂ : List TransferInstruction) :
    sent k (l₁ ++ l₂) = sent k l₁ + sent k l₂ := by
  induction l₁ with
  | nil => simp [sent]
  | cons t ts ih => simp [sent, ih]; ring

theorem consEq_refl (st : AllocState) : ConsEq st st := fun _ => ⟨rfl, rfl⟩

theorem consEq_trans {st₁ st₂ st₃ : AllocState}
    (h₁ : ConsEq st₁ st₂) (h₂ : ConsEq st₂ st₃) : ConsEq st₁ st₃ := by
  intro k
  exact ⟨(h₂ k).1.trans (h₁ k).1, (h₂ k).2.trans (h₁ k).2⟩

theorem applyTransfer_consEq (sender receiver item : String) (qty : ℚ) (tipi : String)
    (st : AllocState) :
    ConsEq st (applyTransfer sender receiver item qty tipi st) := by
  rw [applyTransfer]
  by_cases h : qty ≤ 0
  · rw [if_pos h]; exact consEq_refl st
  · rw [if_neg h]
    intro k
    constructor
    · simp only [received_append, dictGetD_sub, received]
      by_cases hk : (receiver, item) = k
      · obtain ⟨rfl, rfl⟩ := Prod.mk.injEq .. ▸ hk
        simp [received]
      · rw [if_neg hk]
        have : ¬(receiver = k.1 ∧ item = k.2) := fun ⟨h1, h2⟩ => hk (Prod.ext h1 h2)
        simp [received, this]
    · simp only [sent_append, dictGetD_sub, sent]
      by_cases hk : (sender, item) = k
      · obtain ⟨rfl, rfl⟩ := Prod.mk.injEq .. ▸ hk
        simp [sent]
      · rw [if_neg hk]
        have : ¬(sender = k.1 ∧ item = k.2) := fun ⟨h1, h2⟩ => hk (Prod.ext h1 h2)
        simp [sent, this]

theorem senderLoop_consEq (item recv : String) (senders : List String) (tipi : String)
    (rNeed : ℚ) (st : AllocState) :
    ConsEq st (senderLoop item recv senders tipi rNeed st) := by
  induction senders generalizing rNeed st with
  | nil => exact consEq_refl st
  | cons send rest ih =>
      rw [senderLoop]
      by_cases h1 : send = recv
      · rw [if_pos h1]; exact ih rNeed st
      · rw [if_neg h1]
        by_cases h2 : dictGetD st.availability (send, item) ≤ 0 ∨ rNeed ≤ 0
        · rw [if_pos h2]; exact ih rNeed st
        · rw [if_neg h2]
          exact consEq_trans (applyTransfer_consEq send recv item _ tipi st) (ih _ _)

theorem receiverLoop_consEq (item : String) (receivers senders : List String)
    (tipi : String) (st : AllocState) :
    ConsEq st (receiverLoop item receivers senders tipi st) := by
  induction receivers generalizing st with
  | nil => exact consEq_refl st
  | cons recv rest ih =>
      rw [receiverLoop]
      by_cases h : dictGetD st.need (recv, item) ≤ 0
      · rw [if_pos h]; exact ih st
      · rw [if_neg h]
        exact consEq_trans (senderLoop_consEq item recv senders tipi _ st) (ih _)

theorem runItem_consEq (depots : List String) (item : String) (tipi : String)
    (st : AllocState) : ConsEq st (runItem depots item tipi st) := by
  rw [runItem]
  by_cases h1 : candidates depots st.need item = []
  · rw [if_pos h1]; exact consEq_refl st
  · rw [if_neg h1]
    by_cases h2 : candidates depots st.availability item = []
    · rw [if_pos h2]; exact consEq_refl st
    · rw [if_neg h2]; exact receiverLoop_consEq item _ _ tipi st

theorem foldl_consEq {α : Type} (g : AllocState → α → AllocState)
    (hg : ∀ st a, ConsEq st (g st a)) :
    ∀ (l : List α) (st : AllocState), ConsEq st (l.foldl g st) := by
  intro l
  induction l with
  | nil => intro st; exact consEq_refl st
  | cons a as ih =>
      intro st
      rw [List.foldl_cons]
      exact consEq_trans (hg st a) (ih (g st a))

theorem stage1Region_consEq (groupRows : List Row) (st : AllocState) :
    ConsEq st (stage1Region groupRows st) := by
  rw [stage1Region]
  exact foldl_consEq _ (fun s it => runItem_consEq _ it "Bölge içi" s) _ st

theorem stage1_consEq (rows : List Row) (st : AllocState) :
    ConsEq st (stage1 rows st) := by
  rw [stage1]
  exact foldl_consEq _ (fun s m => stage1Region_consEq (rowsForManager rows m) s) _ st

theorem stage2_consEq (rows : List Row) (st : AllocState) :
    ConsEq st (stage2 rows st) := by
  rw [stage2]
  exact foldl_consEq _ (fun s it => runItem_consEq _ it "Bölge dışı" s) _ st

theorem runEngine_consEq (rawRows : List Row) :
    ConsEq (initState (rawRows.map normalizeRow)) (runEngine rawRows) := by
  rw [runEngine]
  exact consEq_trans (stage1_consEq _ _) (stage2_consEq _ _)

/-! ### Monotonicity: need and availability values never increase -/

theorem monoLe_refl (st : AllocState) : MonoLe st st :=
  ⟨fun _ => le_refl _, fun _ => le_refl _⟩

theorem monoLe_trans {st₁ st₂ st₃ : AllocState}
    (h₁ : MonoLe st₁ st₂) (h₂ : MonoLe st₂ st₃) : MonoLe st₁ st₃ :=
  ⟨fun k => (h₂.1 k).trans (h₁.1 k), fun k => (h₂.2 k).trans (h₁.2 k)⟩

theorem applyTransfer_monoLe (sender receiver item : String) (qty : ℚ) (tipi : String)
    (st : AllocState) : MonoLe st (applyTransfer sender receiver item qty tipi st) := by
  rw [applyTransfer]
  by_cases h : qty ≤ 0
  · rw [if_pos h]; exact monoLe_refl st
  · rw [if_neg h]
    have hq : 0 ≤ qty := le_of_lt (lt_of_not_le h)
    exact ⟨fun k => dictGetD_sub_le _ _ _ hq k, fun k => dictGetD_sub_le _ _ _ hq k⟩

theorem senderLoop_monoLe (item recv : String) (senders : List String) (tipi : String)
    (rNeed : ℚ) (st : AllocState) :
    MonoLe st (senderLoop item recv senders tipi rNeed st) := by
  induction senders generalizing rNeed st with
  | nil => exact monoLe_refl st
  | cons send rest ih =>
      rw [senderLoop]
      by_cases h1 : send = recv
      · rw [if_pos h1]; exact ih rNeed st
      · rw [if_neg h1]
        by_cases h2 : dictGetD st.availability (send, item) ≤ 0 ∨ rNeed ≤ 0
        · rw [if_pos h2]; exact ih rNeed st
        · rw [if_neg h2]
          exact monoLe_trans (applyTransfer_monoLe send recv item _ tipi st) (ih _ _)

theorem receiverLoop_monoLe (item : String) (receivers senders : List String)
    (tipi : String) (st : AllocState) :
    MonoLe st (receiverLoop item receivers senders tipi st) := by
  induction receivers generalizing st with
  | nil => exact monoLe_refl st
  | cons recv rest ih =>
      rw [receiverLoop]
      by_cases h : dictGetD st.need (recv, item) ≤ 0
      · rw [if_pos h]; exact ih st
      · rw [if_neg h]
        exact monoLe_trans (senderLoop_monoLe item recv senders tipi _ st) (ih _)

theorem runItem_monoLe (depots : List String) (item : String) (tipi : String)
    (st : AllocState) : MonoLe st (runItem depots item tipi st) := by
  rw [runItem]
  by_cases h1 : candidates depots st.need item = []
  · rw [if_pos h1]; exact monoLe_refl st
  · rw [if_neg h1]
    by_cases h2 : candidates depots st.availability item = []
    · rw [if_pos h2]; exact monoLe_refl st
    · rw [if_neg h2]; exact receiverLoop_monoLe item _ _ tipi st

theorem foldl_monoLe {α : Type} (g : AllocState → α → AllocState)
    (hg : ∀ st a, MonoLe st (g st a)) :
    ∀ (l : List α) (st : AllocState), MonoLe st (l.foldl g st) := by
  intro l
  induction l with
  | nil => intro st; exact monoLe_refl st
  | cons a as ih =>
      intro st
      rw [List.foldl_cons]
      exact monoLe_trans (hg st a) (ih (g st a))

theorem stage1_monoLe (rows : List Row) (st : AllocState) :
    MonoLe st (stage1 rows st) := by
  rw [stage1]
  refine foldl_monoLe _ (fun s m => ?_) _ st
  rw [stage1Region]
  exact foldl_monoLe _ (fun s' it => runItem_monoLe _ it "Bölge içi" s') _ s

theorem stage2_monoLe (rows : List Row) (st : AllocState) :
    MonoLe st (stage2 rows st) := by
  rw [stage2]
  exact foldl_monoLe _ (fun s it => runItem_monoLe _ it "Bölge dışı" s) _ st

/-! ### The `ok` flag: positive-quantity transfers always find their keys -/

theorem senderLoop_ok (item recv : String) (senders : List String) (tipi : String)
    (rNeed : ℚ) (st : AllocState)
    (hinv : rNeed = dictGetD st.need (recv, item)) :
    (senderLoop item recv senders tipi rNeed st).ok = st.ok := by
  induction senders generalizing rNeed st with
  | nil => rfl
  | cons send rest ih =>
      rw [senderLoop]
      by_cases h1 : send = recv
      · rw [if_pos h1]; exact ih rNeed st hinv
      · rw [if_neg h1]
        by_cases h2 : dictGetD st.availability (send, item) ≤ 0 ∨ rNeed ≤ 0
        · rw [if_pos h2]; exact ih rNeed st hinv
        · rw [if_neg h2]
          push_neg at h2
          obtain ⟨havail, hneed⟩ := h2
          set qty := min rNeed (dictGetD st.availability (send, item)) with hqty
          have hqpos : 0 < qty := lt_min hneed havail
          have hinv' : rNeed - qty
              = dictGetD (applyTransfer send recv item qty tipi st).need (recv, item) := by
            rw [applyTransfer, if_neg (not_le.mpr hqpos)]
            simp [dictGetD_sub, hinv]
          rw [ih _ _ hinv']
          rw [applyTransfer, if_neg (not_le.mpr hqpos)]
          simp only
          rw [dictContains_of_pos st.availability (send, item) havail,
            dictContains_of_pos st.need (recv, item) (hinv ▸ hneed)]
          simp

theorem receiverLoop_ok (item : String) (receivers senders : List String)
    (tipi : String) (st : AllocState) :
    (receiverLoop item receivers senders tipi st).ok = st.ok := by
  induction receivers generalizing st with
  | nil => rfl
  | cons recv rest ih =>
      rw [receiverLoop]
      by_cases h : dictGetD st.need (recv, item) ≤ 0
      · rw [if_pos h]; exact ih st
      · rw [if_neg h]
        rw [ih, senderLoop_ok item recv senders tipi _ st rfl]

theorem runItem_ok (depots : List String) (item : String) (tipi : String)
    (st : AllocState) : (runItem depots item tipi st).ok = st.ok := by
  rw [runItem]
  by_cases h1 : candidates depots st.need item = []
  · rw [if_pos h1]
  · rw [if_neg h1]
    by_cases h2 : candidates depots st.availability item = []
    · rw [if_pos h2]
    · rw [if_neg h2]; exact receiverLoop_ok item _ _ tipi st

theorem foldl_ok {α : Type} (g : AllocState → α → AllocState)
    (hg : ∀ st a, (g st a).ok = st.ok) :
    ∀ (l : List α) (st : AllocState), (l.foldl g st).ok = st.ok := by
  intro l
  induction l with
  | nil => intro st; rfl
  | cons a as ih =>
      intro st
      rw [List.foldl_cons, ih (g st a), hg st a]

theorem stage1_ok (rows : List Row) (st : AllocState) :
    (stage1 rows st).ok = st.ok := by
  rw [stage1]
  refine foldl_ok _ (fun s m => ?_) _ st
  rw [stage1Region]
  exact foldl_ok _ (fun s' it => runItem_ok _ it "Bölge içi" s') _ s

theorem stage2_ok (rows : List Row) (st : AllocState) :
    (stage2 rows st).ok = st.ok := by
  rw [stage2]
  exact foldl_ok _ (fun s it => runItem_ok _ it "Bölge dışı" s) _ st

/-! ### Replay of the recorded instructions and non-negativity -/

theorem replayNeed_append (nd : Dict) (l₁ l₂ : List TransferInstruction) :
    replayNeed nd (l₁ ++ l₂) = replayNeed (replayNeed nd l₁) l₂ := by
  induction l₁ generalizing nd with
  | nil => rfl
  | cons t ts ih => rw [List.cons_append, replayNeed, replayNeed, ih]

theorem replayAvail_append (av : Dict) (l₁ l₂ : List TransferInstruction) :
    replayAvail av (l₁ ++ l₂) = replayAvail (replayAvail av l₁) l₂ := by
  induction l₁ generalizing av with
  | nil => rfl
  | cons t ts ih => rw [List.cons_append, replayAvail, replayAvail, ih]

theorem prefixSnoc {α : Type} (p l : List α) (a : α) :
    p <+: l ++ [a] ↔ p <+: l ∨ p = l ++ [a] := by
  constructor
  · rintro ⟨s, hs⟩
    rcases s.eq_nil_or_concat with rfl | ⟨L, b, rfl⟩
    · exact Or.inr (by simpa using hs)
    · rw [List.concat_eq_append, ← List.append_assoc] at hs
      rcases List.append_inj' hs rfl with ⟨h1, _⟩
      exact Or.inl ⟨L, h1⟩
  · rintro (⟨s, hs⟩ | rfl)
    · exact ⟨s ++ [a], by rw [← List.append_assoc, hs]⟩
    · exact ⟨[], by simp⟩

theorem tracks_init (nd av : Dict) (st : AllocState)
    (ht : st.transfers = []) (hn : st.need = nd) (ha : st.availability = av)
    (hnn : NonNegD nd) (han : NonNegD av) : Tracks nd av st := by
  refine ⟨by rw [ht, hn]; rfl, by rw [ht, ha]; rfl, fun p hp => ?_⟩
  rw [ht] at hp
  rcases hp with ⟨s, hs⟩
  rcases List.append_eq_nil.mp hs with ⟨rfl, _⟩
  exact ⟨hnn, han⟩

theorem applyTransfer_tracks {nd av : Dict} {st : AllocState}
    (sender receiver item : String) (qty : ℚ) (tipi : String)
    (h : Tracks nd av st)
    (hb₁ : qty ≤ dictGetD st.need (receiver, item))
    (hb₂ : qty ≤ dictGetD st.availability (sender, item)) :
    Tracks nd av (applyTransfer sender receiver item qty tipi st) := by
  rw [applyTransfer]
  by_cases hq : qty ≤ 0
  · rw [if_pos hq]; exact h
  · rw [if_neg hq]
    obtain ⟨hneed, havail, hpre⟩ := h
    have hself : st.transfers <+: st.transfers := ⟨[], List.append_nil _⟩
    have hstn : NonNegD st.need := by
      rw [hneed]; exact (hpre st.transfers hself).1
    have hsta : NonNegD st.availability := by
      rw [havail]; exact (hpre st.transfers hself).2
    have hrepn : replayNeed nd (st.transfers ++ [⟨tipi, sender, receiver, item, qty⟩])
        = dictSub st.need (receiver, item) qty := by
      rw [replayNeed_append, ← hneed, replayNeed, replayNeed]
    have hrepa : replayAvail av (st.transfers ++ [⟨tipi, sender, receiver, item, qty⟩])
        = dictSub st.availability (sender, item) qty := by
      rw [replayAvail_append, ← havail, replayAvail, replayAvail]
    have hnnN : NonNegD (dictSub st.need (receiver, item) qty) := by
      intro k
      rw [dictGetD_sub]
      by_cases hk : (receiver, item) = k
      · rw [if_pos hk]
        linarith
      · rw [if_neg hk]; exact hstn k
    have hnnA : NonNegD (dictSub st.availability (sender, item) qty) := by
      intro k
      rw [dictGetD_sub]
      by_cases hk : (sender, item) = k
      · rw [if_pos hk]
        linarith
      · rw [if_neg hk]; exact hsta k
    refine ⟨by simpa using hrepn.symm, by simpa using hrepa.symm, fun p hp => ?_⟩
    simp only at hp
    rcases (prefixSnoc p st.transfers _).mp hp with hp' | rfl
    · exact hpre p hp'
    · rw [hrepn, hrepa]
      exact ⟨hnnN, hnnA⟩

theorem senderLoop_tracks {nd av : Dict} (item recv : String) (senders : List String)
    (tipi : String) (rNeed : ℚ) (st : AllocState)
    (hinv : rNeed = dictGetD st.need (recv, item)) (h : Tracks nd av st) :
    Tracks nd av (senderLoop item recv senders tipi rNeed st) := by
  induction senders generalizing rNeed st with
  | nil => exact h
  | cons send rest ih =>
      rw [senderLoop]
      by_cases h1 : send = recv
      · rw [if_pos h1]; exact ih rNeed st hinv h
      · rw [if_neg h1]
        by_cases h2 : dictGetD st.availability (send, item) ≤ 0 ∨ rNeed ≤ 0
        · rw [if_pos h2]; exact ih rNeed st hinv h
        · rw [if_neg h2]
          push_neg at h2
          obtain ⟨havail, hneed⟩ := h2
          set qty := min rNeed (dictGetD st.availability (send, item)) with hqty
          have hqpos : 0 < qty := lt_min hneed havail
          have hb₁ : qty ≤ dictGetD st.need (recv, item) := hinv ▸ min_le_left _ _
          have hb₂ : qty ≤ dictGetD st.availability (send, item) := min_le_right _ _
          have hinv' : rNeed - qty
              = dictGetD (applyTransfer send recv item qty tipi st).need (recv, item) := by
            rw [applyTransfer, if_neg (not_le.mpr hqpos)]
            simp [dictGetD_sub, hinv]
          exact ih _ _ hinv'
            (applyTransfer_tracks send recv item qty tipi h hb₁ hb₂)

theorem receiverLoop_tracks {nd av : Dict} (item : String)
    (receivers senders : List String) (tipi : String) (st : AllocState)
    (h : Tracks nd av st) :
    Tracks nd av (receiverLoop item receivers senders tipi st) := by
  induction receivers generalizing st with
  | nil => exact h
  | cons recv rest ih =>
      rw [receiverLoop]
      by_cases hr : dictGetD st.need (recv, item) ≤ 0
      · rw [if_pos hr]; exact ih st h
      · rw [if_neg hr]
        exact ih _ (senderLoop_tracks item recv senders tipi _ st rfl h)

theorem runItem_tracks {nd av : Dict} (depots : List String) (item : String)
    (tipi : String) (st : AllocState) (h : Tracks nd av st) :
    Tracks nd av (runItem depots item tipi st) := by
  rw [runItem]
  by_cases h1 : candidates depots st.need item = []
  · rw [if_pos h1]; exact h
  · rw [if_neg h1]
    by_cases h2 : candidates depots st.availability item = []
    · rw [if_pos h2]; exact h
    · rw [if_neg h2]; exact receiverLoop_tracks item _ _ tipi st h

theorem foldl_tracks {nd av : Dict} {α : Type} (g : AllocState → α → AllocState)
    (hg : ∀ st a, Tracks nd av st → Tracks nd av (g st a)) :
    ∀ (l : List α) (st : AllocState), Tracks nd av st → Tracks nd av (l.foldl g st) := by
  intro l
  induction l with
  | nil => intro st h; exact h
  | cons a as ih =>
      intro st h
      rw [List.foldl_cons]
      exact ih (g st a) (hg st a h)

theorem stage1_tracks {nd av : Dict} (rows : List Row) (st : AllocState)
    (h : Tracks nd av st) : Tracks nd av (stage1 rows st) := by
  rw [stage1]
  refine foldl_tracks _ (fun s m hs => ?_) _ st h
  rw [stage1Region]
  exact foldl_tracks _ (fun s' it hs' => runItem_tracks _ it "Bölge içi" s' hs') _ s hs

theorem stage2_tracks {nd av : Dict} (rows : List Row) (st : AllocState)
    (h : Tracks nd av st) : Tracks nd av (stage2 rows st) := by
  rw [stage2]
  exact foldl_tracks _ (fun s it hs => runItem_tracks _ it "Bölge dışı" s hs) _ st h

/-! ### What `buildDict` can hold at a key -/

theorem buildDict_cases (rows : List Row) (f : Row → ℚ) (k : Key) :
    dictGetD (buildDict rows f) k = 0 ∨
      ∃ r ∈ rows, dictGetD (buildDict rows f) k = f r ∧
        r.depoKodu = k.1 ∧ r.maddeKodu = k.2 := by
  have aux : ∀ (l : List Row) (m0 : Dict),
      dictGetD (l.foldl (fun m r => dictSet m (r.depoKodu, r.maddeKodu) (f r)) m0) k
        = dictGetD m0 k ∨
      ∃ r ∈ l, dictGetD (l.foldl (fun m r => dictSet m (r.depoKodu, r.maddeKodu) (f r)) m0) k
        = f r ∧ r.depoKodu = k.1 ∧ r.maddeKodu = k.2 := by
    intro l
    induction l with
    | nil => intro m0; exact Or.inl rfl
    | cons r rs ih =>
        intro m0
        rw [List.foldl_cons]
        rcases ih (dictSet m0 (r.depoKodu, r.maddeKodu) (f r)) with heq | ⟨r', hr', hv, hd, hi⟩
        · rw [heq, dictGetD_set]
          by_cases hk : (r.depoKodu, r.maddeKodu) = k
          · rw [if_pos hk]
            exact Or.inr ⟨r, List.mem_cons_self r rs, rfl,
              congrArg Prod.fst hk, congrArg Prod.snd hk⟩
          · rw [if_neg hk]
            exact Or.inl rfl
        · exact Or.inr ⟨r', List.mem_cons_of_mem r hr', hv, hd, hi⟩
  have h0 : dictGetD ([] : Dict) k = 0 := rfl
  rcases aux rows [] with heq | hex
  · exact Or.inl (by rw [buildDict, heq, h0])
  · exact Or.inr hex

theorem initState_need_nonneg (rawRows : List Row) :
    NonNegD (initState (rawRows.map normalizeRow)).need := by
  intro k
  rcases buildDict_cases (rawRows.map normalizeRow) (fun r => r.ihtiyac) k with h | ⟨r, hr, hv, _⟩
  · rw [initState]; simp only; rw [h]
  · rw [initState]; simp only; rw [hv]
    rcases List.mem_map.mp hr with ⟨r₀, _, rfl⟩
    exact le_max_right _ _

theorem initState_avail_nonneg (rawRows : List Row) :
    NonNegD (initState (rawRows.map normalizeRow)).availability := by
  intro k
  rcases buildDict_cases (rawRows.map normalizeRow) (fun r => r.transferEdilebilir) k
    with h | ⟨r, hr, hv, _⟩
  · rw [initState]; simp only; rw [h]
  · rw [initState]; simp only; rw [hv]
    rcases List.mem_map.mp hr with ⟨r₀, _, rfl⟩
    exact le_max_right _ _

theorem runEngine_tracks (rawRows : List Row) :
    Tracks (initState (rawRows.map normalizeRow)).need
      (initState (rawRows.map normalizeRow)).availability (runEngine rawRows) := by
  rw [runEngine]
  refine stage2_tracks _ _ (stage1_tracks _ _ ?_)
  exact tracks_init _ _ _ rfl rfl rfl
    (initState_need_nonneg rawRows) (initState_avail_nonneg rawRows)

/-! ### Empty candidate sets and the all-zero cases -/

theorem candidates_eq_nil (depots : List String) (m : Dict) (item : String)
    (h : ∀ d ∈ depots, dictGetD m (d, item) ≤ 0) :
    candidates depots m item = [] := by
  have hf : (depots.map (fun d => (d, dictGetD m (d, item)))).filter
      (fun p => decide (0 < p.2)) = [] := by
    rw [List.filter_eq_nil_iff]
    intro p hp
    rcases List.mem_map.mp hp with ⟨d, hd, rfl⟩
    simpa using not_lt.mpr (h d hd)
  rw [candidates, hf]
  rfl

theorem runItem_eq_of_needZero (depots : List String) (item : String) (tipi : String)
    (st : AllocState) (h : ∀ k : Key, dictGetD st.need k ≤ 0) :
    runItem depots item tipi st = st := by
  rw [runItem, if_pos (candidates_eq_nil depots st.need item (fun d _ => h (d, item)))]

theorem runItem_eq_of_availZero (depots : List String) (item : String) (tipi : String)
    (st : AllocState) (h : ∀ k : Key, dictGetD st.availability k ≤ 0) :
    runItem depots item tipi st = st := by
  rw [runItem]
  by_cases h1 : candidates depots st.need item = []
  · rw [if_pos h1]
  · rw [if_neg h1,
      if_pos (candidates_eq_nil depots st.availability item (fun d _ => h (d, item)))]

theorem foldl_fix {α : Type} (g : AllocState → α → AllocState) (st : AllocState)
    (hg : ∀ a, g st a = st) : ∀ l : List α, l.foldl g st = st := by
  intro l
  induction l with
  | nil => rfl
  | cons a as ih => rw [List.foldl_cons, hg a, ih]

theorem stage1_eq_of_needZero (rows : List Row) (st : AllocState)
    (h : ∀ k : Key, dictGetD st.need k ≤ 0) : stage1 rows st = st := by
  rw [stage1]
  refine foldl_fix _ st (fun m => ?_) _
  rw [stage1Region]
  exact foldl_fix _ st (fun it => runItem_eq_of_needZero _ it "Bölge içi" st h) _

theorem stage2_eq_of_needZero (rows : List Row) (st : AllocState)
    (h : ∀ k : Key, dictGetD st.need k ≤ 0) : stage2 rows st = st := by
  rw [stage2]
  exact foldl_fix _ st (fun it => runItem_eq_of_needZero _ it "Bölge dışı" st h) _

theorem stage1_eq_of_availZero (rows : List Row) (st : AllocState)
    (h : ∀ k : Key, dictGetD st.availability k ≤ 0) : stage1 rows st = st := by
  rw [stage1]
  refine foldl_fix _ st (fun m => ?_) _
  rw [stage1Region]
  exact foldl_fix _ st (fun it => runItem_eq_of_availZero _ it "Bölge içi" st h) _

theorem stage2_eq_of_availZero (rows : List Row) (st : AllocState)
    (h : ∀ k : Key, dictGetD st.availability k ≤ 0) : stage2 rows st = st := by
  rw [stage2]
  exact foldl_fix _ st (fun it => runItem_eq_of_availZero _ it "Bölge dışı" st h) _

/-! ### Exhaustiveness of Stage 2 -/

theorem noMatch_mono {st st' : AllocState} {item D E : String}
    (hm : MonoLe st st') (h : NoMatch st item D E) : NoMatch st' item D E := by
  rcases h with h | h
  · exact Or.inl ((hm.1 (D, item)).trans h)
  · exact Or.inr ((hm.2 (E, item)).trans h)

theorem senderLoop_noMatch (item recv : String) (senders : List String) (tipi : String)
    (rNeed : ℚ) (st : AllocState)
    (hinv : rNeed = dictGetD st.need (recv, item)) :
    ∀ E ∈ senders, E ≠ recv →
      NoMatch (senderLoop item recv senders tipi rNeed st) item recv E := by
  induction senders generalizing rNeed st with
  | nil => intro E hE; exact absurd hE (List.not_mem_nil E)
  | cons send rest ih =>
      intro E hE hne
      rw [senderLoop]
      by_cases h1 : send = recv
      · rw [if_pos h1]
        rcases List.mem_cons.mp hE with rfl | hE'
        · exact absurd h1 hne
        · exact ih rNeed st hinv E hE' hne
      · rw [if_neg h1]
        by_cases h2 : dictGetD st.availability (send, item) ≤ 0 ∨ rNeed ≤ 0
        · rw [if_pos h2]
          rcases h2 with h2 | h2
          · rcases List.mem_cons.mp hE with rfl | hE'
            · exact noMatch_mono (senderLoop_monoLe item recv rest tipi rNeed st)
                (Or.inr h2)
            · exact ih rNeed st hinv E hE' hne
          · exact noMatch_mono (senderLoop_monoLe item recv rest tipi rNeed st)
              (Or.inl (hinv ▸ h2))
        · rw [if_neg h2]
          push_neg at h2
          obtain ⟨havail, hneed⟩ := h2
          set qty := min rNeed (dictGetD st.availability (send, item)) with hqty
          have hqpos : 0 < qty := lt_min hneed havail
          have hqle : ¬ qty ≤ 0 := not_le.mpr hqpos
          have hstep_need : dictGetD (applyTransfer send recv item qty tipi st).need
              (recv, item) = rNeed - qty := by
            rw [applyTransfer, if_neg hqle]
            simp [dictGetD_sub, hinv]
          have hstep_avail : dictGetD (applyTransfer send recv item qty tipi st).availability
              (send, item) = dictGetD st.availability (send, item) - qty := by
            rw [applyTransfer, if_neg hqle]
            simp [dictGetD_sub]
          rcases List.mem_cons.mp hE with rfl | hE'
          · -- this very sender: the transferred `min` exhausts one side
            refine noMatch_mono (senderLoop_monoLe item recv rest tipi _ _) ?_
            rcases le_total rNeed (dictGetD st.availability (E, item)) with hmin | hmin
            · refine Or.inl ?_
              rw [hstep_need, hqty, min_eq_left hmin]
              linarith
            · refine Or.inr ?_
              rw [hstep_avail, hqty, min_eq_right hmin]
              linarith
          · exact ih _ _ hstep_need.symm E hE' hne

theorem receiverLoop_noMatch (item : String) (receivers senders : List String)
    (tipi : String) (st : AllocState) :
    ∀ D ∈ receivers, ∀ E ∈ senders, D ≠ E →
      NoMatch (receiverLoop item receivers senders tipi st) item D E := by
  induction receivers generalizing st with
  | nil => intro D hD; exact absurd hD (List.not_mem_nil D)
  | cons recv rest ih =>
      intro D hD E hE hne
      rw [receiverLoop]
      by_cases hr : dictGetD st.need (recv, item) ≤ 0
      · rw [if_pos hr]
        rcases List.mem_cons.mp hD with rfl | hD'
        · exact noMatch_mono (receiverLoop_monoLe item rest senders tipi st) (Or.inl hr)
        · exact ih st D hD' E hE hne
      · rw [if_neg hr]
        rcases List.mem_cons.mp hD with rfl | hD'
        · refine noMatch_mono (receiverLoop_monoLe item rest senders tipi _) ?_
          exact senderLoop_noMatch item D senders tipi _ st rfl E hE (fun h => hne h.symm)
        · exact ih _ D hD' E hE hne

theorem runItem_noMatch (depots : List String) (item : String) (tipi : String)
    (st : AllocState) :
    ∀ D ∈ depots, ∀ E ∈ depots, D ≠ E →
      NoMatch (runItem depots item tipi st) item D E := by
  intro D hD E hE hne
  rw [runItem]
  by_cases h1 : candidates depots st.need item = []
  · rw [if_pos h1]
    refine Or.inl ?_
    by_contra hpos
    have : D ∈ candidates depots st.need item :=
      (mem_candidates _ _ _ _).mpr ⟨hD, lt_of_not_le hpos⟩
    rw [h1] at this
    exact List.not_mem_nil D this
  · rw [if_neg h1]
    by_cases h2 : candidates depots st.availability item = []
    · rw [if_pos h2]
      refine Or.inr ?_
      by_contra hpos
      have : E ∈ candidates depots st.availability item :=
        (mem_candidates _ _ _ _).mpr ⟨hE, lt_of_not_le hpos⟩
      rw [h2] at this
      exact List.not_mem_nil E this
    · rw [if_neg h2]
      by_cases hDn : dictGetD st.need (D, item) ≤ 0
      · exact noMatch_mono (receiverLoop_monoLe item _ _ tipi st) (Or.inl hDn)
      · by_cases hEa : dictGetD st.availability (E, item) ≤ 0
        · exact noMatch_mono (receiverLoop_monoLe item _ _ tipi st) (Or.inr hEa)
        · refine receiverLoop_noMatch item _ _ tipi st D ?_ E ?_ hne
          · exact (mem_candidates _ _ _ _).mpr ⟨hD, lt_of_not_le hDn⟩
          · exact (mem_candidates _ _ _ _).mpr ⟨hE, lt_of_not_le hEa⟩

theorem stage2_noMatch (rows : List Row) (st : AllocState) :
    ∀ item ∈ dedupFirst (rows.map (fun r => r.maddeKodu)),
      ∀ D ∈ dedupFirst (rows.map (fun r => r.depoKodu)),
        ∀ E ∈ dedupFirst (rows.map (fun r => r.depoKodu)),
          D ≠ E → NoMatch (stage2 rows st) item D E := by
  rw [stage2]
  set depots := dedupFirst (rows.map (fun r => r.depoKodu)) with hdep
  have gen : ∀ (items : List String) (st : AllocState), ∀ item ∈ items, ∀ D ∈ depots,
      ∀ E ∈ depots, D ≠ E →
      NoMatch (items.foldl (fun s it => runItem depots it "Bölge dışı" s) st) item D E := by
    intro items
    induction items with
    | nil => intro st item hitem; exact absurd hitem (List.not_mem_nil item)
    | cons it its ih =>
        intro st item hitem D hD E hE hne
        rw [List.foldl_cons]
        rcases List.mem_cons.mp hitem with rfl | hitem'
        · refine noMatch_mono ?_ (runItem_noMatch depots item "Bölge dışı" st D hD E hE hne)
          exact foldl_monoLe _ (fun s a => runItem_monoLe depots a "Bölge dışı" s) its _
        · exact ih _ item hitem' D hD E hE hne
  exact gen _ st

/-! ### Stability and sortedness of the embedded candidate sort

These lemmas record the tie order the embedding commits to (descending,
equal values in input order).  The source guarantees this order only for
candidate arrays below numpy introsort's insertion-sort cutoff; see the
module comment and claim C5. -/

theorem insertDesc_filter (x : String × ℚ) (l : List (String × ℚ)) (v : ℚ) :
    (insertDesc x l).filter (fun p => decide (p.2 = v)) =
      if x.2 = v then x :: l.filter (fun p => decide (p.2 = v))
      else l.filter (fun p => decide (p.2 = v)) := by
  induction l with
  | nil =>
      rw [insertDesc]
      by_cases hx : x.2 = v <;> simp [List.filter, hx]
  | cons y ys ih =>
      rw [insertDesc]
      by_cases hy : y.2 ≤ x.2
      · rw [if_pos hy]
        by_cases hx : x.2 = v <;> simp [List.filter_cons, hx]
      · rw [if_neg hy]
        by_cases hx : x.2 = v
        · have hyv : ¬ y.2 = v := by
            intro h
            exact hy (le_of_eq (h.trans hx.symm))
          rw [if_pos hx]
          simp [List.filter_cons, hyv, ih, hx]
        · rw [if_neg hx]
          by_cases hyv : y.2 = v <;> simp [List.filter_cons, hyv, ih, hx]

theorem sortDesc_filter (l : List (String × ℚ)) (v : ℚ) :
    (sortDesc l).filter (fun p => decide (p.2 = v)) =
      l.filter (fun p => decide (p.2 = v)) := by
  induction l with
  | nil => rfl
  | cons x xs ih =>
      rw [sortDesc, insertDesc_filter]
      by_cases hx : x.2 = v <;> simp [List.filter_cons, hx, ih]

theorem insertDesc_pairwise (x : String × ℚ) (l : List (String × ℚ))
    (h : List.Pairwise (fun a b : String × ℚ => b.2 ≤ a.2) l) :
    List.Pairwise (fun a b : String × ℚ => b.2 ≤ a.2) (insertDesc x l) := by
  induction l with
  | nil => simp [insertDesc]
  | cons y ys ih =>
      rw [insertDesc]
      by_cases hy : y.2 ≤ x.2
      · rw [if_pos hy]
        refine List.pairwise_cons.mpr ⟨?_, h⟩
        intro z hz
        rcases List.mem_cons.mp hz with rfl | hz'
        · exact hy
        · exact ((List.pairwise_cons.mp h).1 z hz').trans hy
      · rw [if_neg hy]
        obtain ⟨hhead, htail⟩ := List.pairwise_cons.mp h
        refine List.pairwise_cons.mpr ⟨?_, ih htail⟩
        intro z hz
        rcases (mem_insertDesc x ys z).mp hz with rfl | hz'
        · exact le_of_lt (lt_of_not_le hy)
        · exact hhead z hz'

theorem sortDesc_pairwise (l : List (String × ℚ)) :
    List.Pairwise (fun a b : String × ℚ => b.2 ≤ a.2) (sortDesc l) := by
  induction l with
  | nil => exact List.Pairwise.nil
  | cons x xs ih => exact insertDesc_pairwise x (sortDesc xs) ih

/-! ### The claims -/

/-- C1.  Conservation: for every (depot, item) key, the initial need minus
the final need equals the sum of quantities of all recorded instructions
in which that depot receives that item, and the initial availability minus
the final availability equals the sum of quantities of all recorded
instructions in which that depot sends that item, over the whole run. -/
theorem conservation (rawRows : List Row) (dep it : String) :
    dictGetD (initState (rawRows.map normalizeRow)).need (dep, it)
        - dictGetD (runEngine rawRows).need (dep, it)
      = received (dep, it) (runEngine rawRows).transfers ∧
    dictGetD (initState (rawRows.map normalizeRow)).availability (dep, it)
        - dictGetD (runEngine rawRows).availability (dep, it)
      = sent (dep, it) (runEngine rawRows).transfers := by
  have h := runEngine_consEq rawRows (dep, it)
  have h₁ : received (dep, it) (initState (rawRows.map normalizeRow)).transfers = 0 := rfl
  have h₂ : sent (dep, it) (initState (rawRows.map normalizeRow)).transfers = 0 := rfl
  obtain ⟨hn, ha⟩ := h
  rw [h₁] at hn
  rw [h₂] at ha
  constructor <;> linarith

/-- C2.  Non-negativity: after every applied transfer — i.e. for the
replay of every prefix of the recorded instruction list over the loaded
dicts — and at the end of the run, every need value and every
availability value is ≥ 0. -/
theorem nonneg_always (rawRows : List Row) :
    (∀ p, p <+: (runEngine rawRows).transfers →
      NonNegD (replayNeed (initState (rawRows.map normalizeRow)).need p) ∧
      NonNegD (replayAvail (initState (rawRows.map normalizeRow)).availability p)) ∧
    NonNegD (runEngine rawRows).need ∧ NonNegD (runEngine rawRows).availability := by
  obtain ⟨hn, ha, hp⟩ := runEngine_tracks rawRows
  refine ⟨hp, ?_, ?_⟩
  · rw [hn]
    exact (hp _ ⟨[], List.append_nil _⟩).1
  · rw [ha]
    exact (hp _ ⟨[], List.append_nil _⟩).2

/-- Witness for C2 at a concrete input and a concrete one-step prefix. -/
theorem nonneg_always_witness :
    NonNegD (replayNeed (initState (rowsW.map normalizeRow)).need
      [⟨"Bölge içi", "A", "B", "X001", 10⟩]) ∧
    NonNegD (replayAvail (initState (rowsW.map normalizeRow)).availability
      [⟨"Bölge içi", "A", "B", "X001", 10⟩]) :=
  (nonneg_always rowsW).1 [⟨"Bölge içi", "A", "B", "X001", 10⟩]
    (by with_unfolding_all decide)

/-- C3.  Recorder contract: a call with qty ≤ 0 is a complete no-op (the
whole state, hence the ledger and both dicts, is unchanged and no error is
possible); a call with qty > 0 appends exactly one instruction with that
quantity and classification and in the same step decrements
availability[(sender, item)] and need[(receiver, item)] by qty. -/
theorem recorder_contract (sender receiver item : String) (qty : ℚ) (tipi : String)
    (st : AllocState) :
    (qty ≤ 0 → applyTransfer sender receiver item qty tipi st = st) ∧
    (0 < qty →
      (applyTransfer sender receiver item qty tipi st).transfers
          = st.transfers ++ [⟨tipi, sender, receiver, item, qty⟩] ∧
      (∀ k : Key, dictGetD (applyTransfer sender receiver item qty tipi st).availability k
          = dictGetD st.availability k - (if (sender, item) = k then qty else 0)) ∧
      (∀ k : Key, dictGetD (applyTransfer sender receiver item qty tipi st).need k
          = dictGetD st.need k - (if (receiver, item) = k then qty else 0))) := by
  constructor
  · intro h
    rw [applyTransfer, if_pos h]
  · intro h
    have hn : ¬ qty ≤ 0 := not_le.mpr h
    refine ⟨by rw [applyTransfer, if_neg hn], fun k => ?_, fun k => ?_⟩
    · rw [applyTransfer, if_neg hn]
      simp only [dictGetD_sub]
      by_cases hk : (sender, item) = k
      · rw [if_pos hk, if_pos hk, ← hk]
      · rw [if_neg hk, if_neg hk, sub_zero]
    · rw [applyTransfer, if_neg hn]
      simp only [dictGetD_sub]
      by_cases hk : (receiver, item) = k
      · rw [if_pos hk, if_pos hk, ← hk]
      · rw [if_neg hk, if_neg hk, sub_zero]

/-- Witness for C3: both branches of the contract at concrete inputs. -/
theorem recorder_contract_witness :
    applyTransfer "A" "B" "X001" 0 "Bölge içi" (initState rowsW) = initState rowsW ∧
    (applyTransfer "A" "B" "X001" 1 "Bölge içi" (initState rowsW)).transfers
      = (initState rowsW).transfers ++ [⟨"Bölge içi", "A", "B", "X001", 1⟩] :=
  ⟨(recorder_contract "A" "B" "X001" 0 "Bölge içi" (initState rowsW)).1
      (by with_unfolding_all decide),
   ((recorder_contract "A" "B" "X001" 1 "Bölge içi" (initState rowsW)).2
      (by with_unfolding_all decide)).1⟩

/-- C4.  Stage ordering: the returned transfer sequence splits into a
block of intra-region ("Bölge içi") instructions followed by a block of
cross-region ("Bölge dışı") instructions, so no cross-region instruction
precedes an intra-region one. -/
theorem stage_ordering (rawRows : List Row) :
    ∃ l₁ l₂, (runEngine rawRows).transfers = l₁ ++ l₂ ∧
      (∀ t ∈ l₁, t.transferTipi = "Bölge içi") ∧
      (∀ t ∈ l₂, t.transferTipi = "Bölge dışı") := by
  obtain ⟨ts₁, e₁, m₁⟩ :=
    stage1_new (rawRows.map normalizeRow) (initState (rawRows.map normalizeRow))
  obtain ⟨ts₂, e₂, m₂⟩ :=
    stage2_new (rawRows.map normalizeRow)
      (stage1 (rawRows.map normalizeRow) (initState (rawRows.map normalizeRow)))
  refine ⟨ts₁, ts₂, ?_, fun t ht => (m₁ t ht).1, fun t ht => (m₂ t ht).1⟩
  show (stage2 (rawRows.map normalizeRow)
    (stage1 (rawRows.map normalizeRow) (initState (rawRows.map normalizeRow)))).transfers
      = ts₁ ++ ts₂
  rw [e₂, e₁]
  have h0 : (initState (rawRows.map normalizeRow)).transfers = [] := rfl
  rw [h0, List.nil_append]

/-- Witness for C4 at a concrete input whose run has one cross-region
instruction. -/
theorem stage_ordering_witness :
    ∃ l₁ l₂, (runEngine rowsW2).transfers = l₁ ++ l₂ ∧
      (∀ t ∈ l₁, t.transferTipi = "Bölge içi") ∧
      (∀ t ∈ l₂, t.transferTipi = "Bölge dışı") :=
  stage_ordering rowsW2

/-- C6.  Regional containment: every recorded intra-region instruction has
sender and receiver depots drawn from rows of one and the same region
manager group of the input table. -/
theorem regional_containment (rawRows : List Row) (t : TransferInstruction)
    (ht : t ∈ (runEngine rawRows).transfers)
    (htipi : t.transferTipi = "Bölge içi") :
    ∃ m, (∃ r ∈ rawRows, r.bolgeMuduru = m ∧ r.depoKodu = t.gonderenDepo) ∧
      (∃ r ∈ rawRows, r.bolgeMuduru = m ∧ r.depoKodu = t.alanDepo) := by
  obtain ⟨ts₁, e₁, m₁⟩ :=
    stage1_new (rawRows.map normalizeRow) (initState (rawRows.map normalizeRow))
  obtain ⟨ts₂, e₂, m₂⟩ :=
    stage2_new (rawRows.map normalizeRow)
      (stage1 (rawRows.map normalizeRow) (initState (rawRows.map normalizeRow)))
  have hfin : (runEngine rawRows).transfers = ts₁ ++ ts₂ := by
    show (stage2 (rawRows.map normalizeRow)
      (stage1 (rawRows.map normalizeRow) (initState (rawRows.map normalizeRow)))).transfers
        = ts₁ ++ ts₂
    rw [e₂, e₁]
    have h0 : (initState (rawRows.map normalizeRow)).transfers = [] := rfl
    rw [h0, List.nil_append]
  rw [hfin] at ht
  rcases List.mem_append.mp ht with h | h
  · obtain ⟨_, _, _, m, ⟨r₁, hr₁, hm₁, hd₁⟩, ⟨r₂, hr₂, hm₂, hd₂⟩⟩ := m₁ t h
    rcases List.mem_map.mp hr₁ with ⟨s₁, hs₁, rfl⟩
    rcases List.mem_map.mp hr₂ with ⟨s₂, hs₂, rfl⟩
    exact ⟨m, ⟨s₁, hs₁, hm₁, hd₁⟩, ⟨s₂, hs₂, hm₂, hd₂⟩⟩
  · have := (m₂ t h).1
    rw [htipi] at this
    exact absurd this (by decide)

/-- Witness for C6: the intra-region instruction of `rowsW` stays inside
region R1. -/
theorem regional_containment_witness :
    ∃ m, (∃ r ∈ rowsW, r.bolgeMuduru = m ∧ r.depoKodu = "A") ∧
      (∃ r ∈ rowsW, r.bolgeMuduru = m ∧ r.depoKodu = "B") :=
  regional_containment rowsW ⟨"Bölge içi", "A", "B", "X001", 10⟩
    (by with_unfolding_all decide) (by decide)

/-- C7.  No self-transfer: no recorded instruction, in either stage, has
its sending depot equal to its receiving depot. -/
theorem no_self_transfer (rawRows : List Row) (t : TransferInstruction)
    (ht : t ∈ (runEngine rawRows).transfers) :
    t.gonderenDepo ≠ t.alanDepo := by
  obtain ⟨ts₁, e₁, m₁⟩ :=
    stage1_new (rawRows.map normalizeRow) (initState (rawRows.map normalizeRow))
  obtain ⟨ts₂, e₂, m₂⟩ :=
    stage2_new (rawRows.map normalizeRow)
      (stage1 (rawRows.map normalizeRow) (initState (rawRows.map normalizeRow)))
  have hfin : (runEngine rawRows).transfers = ts₁ ++ ts₂ := by
    show (stage2 (rawRows.map normalizeRow)
      (stage1 (rawRows.map normalizeRow) (initState (rawRows.map normalizeRow)))).transfers
        = ts₁ ++ ts₂
    rw [e₂, e₁]
    have h0 : (initState (rawRows.map normalizeRow)).transfers = [] := rfl
    rw [h0, List.nil_append]
  rw [hfin] at ht
  rcases List.mem_append.mp ht with h | h
  · exact (m₁ t h).2.1
  · exact (m₂ t h).2.1

/-- Witness for C7 at the single instruction produced from `rowsW`. -/
theorem no_self_transfer_witness : ("A" : String) ≠ "B" :=
  no_self_transfer rowsW ⟨"Bölge içi", "A", "B", "X001", 10⟩
    (by with_unfolding_all decide)

/-- C8.  Idempotence of zero: on a table whose need values are all ≤ 0
(so every normalized need is 0), and likewise on a table whose
availability values are all ≤ 0, the engine records no transfer. -/
theorem zero_idempotence (rawRows : List Row) :
    ((∀ r ∈ rawRows, r.ihtiyac ≤ 0) → (runEngine rawRows).transfers = []) ∧
    ((∀ r ∈ rawRows, r.transferEdilebilir ≤ 0) → (runEngine rawRows).transfers = []) := by
  constructor
  · intro h
    have hz : ∀ k : Key, dictGetD (initState (rawRows.map normalizeRow)).need k ≤ 0 := by
      intro k
      rcases buildDict_cases (rawRows.map normalizeRow) (fun r => r.ihtiyac) k
        with h0 | ⟨r, hr, hv, _⟩
      · have : (initState (rawRows.map normalizeRow)).need
            = buildDict (rawRows.map normalizeRow) (fun r => r.ihtiyac) := rfl
        rw [this, h0]
      · have heq : (initState (rawRows.map normalizeRow)).need
            = buildDict (rawRows.map normalizeRow) (fun r => r.ihtiyac) := rfl
        rw [heq, hv]
        rcases List.mem_map.mp hr with ⟨r₀, hr₀, rfl⟩
        have : max r₀.ihtiyac 0 = 0 := max_eq_right (h r₀ hr₀)
        rw [normalizeRow]
        simp only
        rw [this]
    show (stage2 (rawRows.map normalizeRow)
      (stage1 (rawRows.map normalizeRow) (initState (rawRows.map normalizeRow)))).transfers
        = []
    rw [stage1_eq_of_needZero _ _ hz, stage2_eq_of_needZero _ _ hz]
    rfl
  · intro h
    have hz : ∀ k : Key,
        dictGetD (initState (rawRows.map normalizeRow)).availability k ≤ 0 := by
      intro k
      rcases buildDict_cases (rawRows.map normalizeRow) (fun r => r.transferEdilebilir) k
        with h0 | ⟨r, hr, hv, _⟩
      · have : (initState (rawRows.map normalizeRow)).availability
            = buildDict (rawRows.map normalizeRow) (fun r => r.transferEdilebilir) := rfl
        rw [this, h0]
      · have heq : (initState (rawRows.map normalizeRow)).availability
            = buildDict (rawRows.map normalizeRow) (fun r => r.transferEdilebilir) := rfl
        rw [heq, hv]
        rcases List.mem_map.mp hr with ⟨r₀, hr₀, rfl⟩
        have : max r₀.transferEdilebilir 0 = 0 := max_eq_right (h r₀ hr₀)
        rw [normalizeRow]
        simp only
        rw [this]
    show (stage2 (rawRows.map normalizeRow)
      (stage1 (rawRows.map normalizeRow) (initState (rawRows.map normalizeRow)))).transfers
        = []
    rw [stage1_eq_of_availZero _ _ hz, stage2_eq_of_availZero _ _ hz]
    rfl

/-- Witness for C8 on a table whose needs are all ≤ 0. -/
theorem zero_idempotence_witness : (runEngine rowsZ).transfers = [] :=
  (zero_idempotence rowsZ).1 (by with_unfolding_all decide)

/-- C9.  Exhaustiveness: when the engine completes, no item has a depot
with remaining need > 0 while a different depot has remaining availability
> 0 for that same item. -/
theorem exhaustiveness (rawRows : List Row) (item D E : String) (hne : D ≠ E) :
    ¬(0 < dictGetD (runEngine rawRows).need (D, item) ∧
      0 < dictGetD (runEngine rawRows).availability (E, item)) := by
  rintro ⟨hD, hE⟩
  have hrun : runEngine rawRows
      = stage2 (rawRows.map normalizeRow)
          (stage1 (rawRows.map normalizeRow) (initState (rawRows.map normalizeRow))) := rfl
  have hmono : MonoLe (initState (rawRows.map normalizeRow)) (runEngine rawRows) := by
    rw [hrun]
    exact monoLe_trans (stage1_monoLe _ _) (stage2_monoLe _ _)
  have hD0 : 0 < dictGetD (initState (rawRows.map normalizeRow)).need (D, item) :=
    lt_of_lt_of_le hD (hmono.1 (D, item))
  have hE0 : 0 < dictGetD (initState (rawRows.map normalizeRow)).availability (E, item) :=
    lt_of_lt_of_le hE (hmono.2 (E, item))
  have hDdom : ∃ r ∈ rawRows.map normalizeRow, r.depoKodu = D ∧ r.maddeKodu = item := by
    rcases buildDict_cases (rawRows.map normalizeRow) (fun r => r.ihtiyac) (D, item)
      with h0 | ⟨r, hr, _, hd, hi⟩
    · have heq : (initState (rawRows.map normalizeRow)).need
          = buildDict (rawRows.map normalizeRow) (fun r => r.ihtiyac) := rfl
      rw [heq, h0] at hD0
      exact absurd hD0 (lt_irrefl 0)
    · exact ⟨r, hr, hd, hi⟩
  have hEdom : ∃ r ∈ rawRows.map normalizeRow, r.depoKodu = E ∧ r.maddeKodu = item := by
    rcases buildDict_cases (rawRows.map normalizeRow) (fun r => r.transferEdilebilir) (E, item)
      with h0 | ⟨r, hr, _, hd, hi⟩
    · have heq : (initState (rawRows.map normalizeRow)).availability
          = buildDict (rawRows.map normalizeRow) (fun r => r.transferEdilebilir) := rfl
      rw [heq, h0] at hE0
      exact absurd hE0 (lt_irrefl 0)
    · exact ⟨r, hr, hd, hi⟩
  obtain ⟨rD, hrD, hdD, hiD⟩ := hDdom
  obtain ⟨rE, hrE, hdE, _⟩ := hEdom
  have hitem : item ∈ dedupFirst ((rawRows.map normalizeRow).map (fun r => r.maddeKodu)) :=
    (mem_dedupFirst _ _).mpr (List.mem_map.mpr ⟨rD, hrD, hiD⟩)
  have hDdep : D ∈ dedupFirst ((rawRows.map normalizeRow).map (fun r => r.depoKodu)) :=
    (mem_dedupFirst _ _).mpr (List.mem_map.mpr ⟨rD, hrD, hdD⟩)
  have hEdep : E ∈ dedupFirst ((rawRows.map normalizeRow).map (fun r => r.depoKodu)) :=
    (mem_dedupFirst _ _).mpr (List.mem_map.mpr ⟨rE, hrE, hdE⟩)
  have hnm := stage2_noMatch (rawRows.map normalizeRow)
    (stage1 (rawRows.map normalizeRow) (initState (rawRows.map normalizeRow)))
    item hitem D hDdep E hEdep hne
  rw [← hrun] at hnm
  rcases hnm with h | h
  · exact absurd hD (not_lt.mpr h)
  · exact absurd hE (not_lt.mpr h)

/-- Witness for C9 at a concrete input and depot pair. -/
theorem exhaustiveness_witness :
    ¬(0 < dictGetD (runEngine rowsW).need ("B", "X001") ∧
      0 < dictGetD (runEngine rowsW).availability ("A", "X001")) :=
  exhaustiveness rowsW "X001" "B" "A" (by decide)

/-- C10.  Key-presence safety: every `apply_transfer` executed with
qty > 0 found the sender's availability key and the receiver's need key
present in their dicts (the `ok` flag, which conjoins those two presence
checks at every recording step, is still true at the end), so the direct
dictionary subtractions never hit a missing key. -/
theorem no_key_error (rawRows : List Row) : (runEngine rawRows).ok = true := by
  have hrun : runEngine rawRows
      = stage2 (rawRows.map normalizeRow)
          (stage1 (rawRows.map normalizeRow) (initState (rawRows.map normalizeRow))) := rfl
  rw [hrun, stage2_ok, stage1_ok]
  rfl

end TransferApp
